import Mathlib

/-!
Verification of the record-splitting engine of `pore_c2` (`src/pore_c2/model.py`).

The embedding below translates `AlignData` and its methods `split`,
`get_subread` and `to_fastq` into Lean.  Python strings are modelled as
`List Char` (for the sequence and quality fields) or `String` (for names and
tags); Python `str` slicing `s[a:b]` is modelled by `pySlice`, including the
CPython semantics for negative and out-of-range indices.  Python `sorted` is
modelled by a stable comparison sort (`List.insertionSort`); on integers any
correct sort has identical output.  The decoding of the `MM`/`ML` tags into a
`modified_bases` mapping is performed by the external `pysam` library in the
source (`self.to_pysam().modified_bases`), so `splitRead` takes the decoded
mapping as an explicit argument, and the reserved modification-tag set
`MOD_TAGS` (defined in the repository's `settings.py`, not part of the
sources at hand) is likewise an explicit parameter `modTags`.  The Python
`assert` in `get_subread` and the `raise ValueError` in `to_fastq` are
modelled with `Except`.
-/

namespace PoreC

/-- CPython clamping of a slice endpoint for a sequence of length `len`:
a negative index counts from the end (clamped below at 0), a non-negative
index is clamped above at `len`. -/
def pyIndex (len : Nat) (i : Int) : Nat :=
  if i < 0 then (i + len).toNat else min i.toNat len

/-- CPython slice `s[a:b]` (step 1). -/
def pySlice {α : Type} (s : List α) (a b : Int) : List α :=
  (s.drop (pyIndex s.length a)).take (pyIndex s.length b - pyIndex s.length a)

/-- Key of the `modified_bases` mapping produced by pysam: the 4-tuple
`(canonical_base, strand, skip_scheme, mod_type)` unpacked in
`AlignData.get_subread` (the 3-tuple variant is the same with
`skip_scheme = ""`). -/
structure ModKey where
  canonical_base : Char
  strand : Int
  skip_scheme : String
  mod_type : String
deriving DecidableEq, Repr

/-- Decoded modification data: mapping (in iteration order) from key to the
list of (parent-frame offset, probability) pairs. -/
def ModMap : Type := List (ModKey × List (Int × Nat))

/-- Embedding of the `AlignData` attrs class (`model.py`), with the same
field defaults. -/
structure AlignData where
  name : String
  seq : List Char
  flag : Int := 4
  ref_name : String := "*"
  ref_pos : Int := 0
  map_quality : Int := 0
  cigar : String := "*"
  next_ref_name : String := "*"
  next_ref_pos : Int := 0
  length : Int := 0
  qual : List Char := ['*']
  tags : List String := []
deriving DecidableEq, Repr

/-- Python `t.split(":", 1)[0]`: the part of the tag before the first colon
(the whole string when there is no colon). -/
def tagKey (t : String) : String :=
  String.mk (t.data.takeWhile (fun c => c ≠ ':'))

/-- Embedding of the `AlignData.has_mods` property: some tag's key belongs to
the reserved modification-tag set. -/
def hasMods (modTags : List String) (r : AlignData) : Bool :=
  r.tags.any (fun t => modTags.contains (tagKey t))

/-- Python `[x for x, b in enumerate(seq) if b.upper() == canonical_base]`:
the positions of the canonical base in the subread sequence.  (The source
caches this per canonical base in `base_indices`; the cache is pure
memoisation with identical results.) -/
def baseIndices (seq : List Char) (b : Char) : List Nat :=
  (List.range seq.length).filter (fun x => (seq.getD x ' ').toUpper == b)

/-- The delta loop of `get_subread`: walk the canonical-base positions of the
subread, emitting the count of unmodified occurrences before each modified
one (`orig_idx = seq_idx + start` tested for membership in the selected
offsets). -/
def deltaLoop (baseOffsets : List Int) (start : Int) : List Nat → Nat → List String
  | [], _ => []
  | i :: rest, counter =>
    if ((i : Int) + start) ∈ baseOffsets then
      toString counter :: deltaLoop baseOffsets start rest 0
    else
      deltaLoop baseOffsets start rest (counter + 1)

/-- The selection predicate of `get_subread`:
`start <= mod_data[x][0] < end`. -/
def inRange (start stop : Int) (p : Int × Nat) : Bool :=
  decide (start ≤ p.1) && decide (p.1 < stop)

/-- Body of the per-key loop of `get_subread`: select the pairs overlapping
the subread (skip the key when none do), recompute deltas, check the
`assert len(deltas) == len(probs)`, and produce this key's `MM`/`ML`
fragments. -/
def processKey (seq : List Char) (start stop : Int) (k : ModKey)
    (modData : List (Int × Nat)) : Except String (Option (String × String)) :=
  let selected := modData.filter (inRange start stop)
  if selected.isEmpty then
    .ok none
  else
    let baseOffsets := selected.map Prod.fst
    let probs := selected.map Prod.snd
    let deltas := deltaLoop baseOffsets start (baseIndices seq k.canonical_base) 0
    if deltas.length = probs.length then
      let strandStr := if k.strand = 0 then "+" else "-"
      .ok (some
        (String.mk [k.canonical_base] ++ strandStr ++ k.mod_type ++ k.skip_scheme
           ++ "," ++ String.intercalate "," deltas ++ ";",
         String.mk [k.canonical_base] ++ ","
           ++ String.intercalate "," (probs.map toString) ++ ";"))
    else
      .error "AssertionError: delta count differs from probability count"

/-- The whole `if modified_bases:` block of `get_subread`: fold the per-key
fragments onto the accumulators that start as `"MM:Z:"` and `"ML:B:"`. -/
def buildModTags (seq : List Char) (start stop : Int) :
    List (ModKey × List (Int × Nat)) → String → String → Except String (String × String)
  | [], mm, ml => .ok (mm, ml)
  | (k, d) :: rest, mm, ml =>
    match processKey seq start stop k d with
    | .error e => .error e
    | .ok none => buildModTags seq start stop rest mm ml
    | .ok (some (mmf, mlf)) => buildModTags seq start stop rest (mm ++ mmf) (ml ++ mlf)

/-- The tag recomputation of `get_subread` before the modification block:
parent tags with modification tags (and, when `add_mi_tag`, the `MI` tag)
stripped, then the `MI` provenance tag, then the `Xc` offset tag. -/
def subreadBaseTags (r : AlignData) (modTags : List String) (start stop : Int)
    (add_mi_tag : Bool) (add_xc_tag : Bool)
    (subread_index : Option (Nat × Nat)) : List String :=
  let tags := r.tags.filter (fun t =>
    !(modTags.contains (tagKey t)) && !(tagKey t == "MI" && add_mi_tag))
  let tags := tags ++ (if add_mi_tag then ["MI:Z:" ++ r.name] else [])
  tags ++
    (if add_xc_tag then
      match subread_index with
      | some si =>
        ["Xc:B:i," ++ toString start ++ "," ++ toString stop ++ ","
           ++ toString si.1 ++ "," ++ toString si.2]
      | none => []
    else [])

/-- Embedding of `AlignData.get_subread`. -/
def getSubread (r : AlignData) (modTags : List String) (start stop : Int)
    (name : String) (add_mi_tag : Bool) (add_xc_tag : Bool)
    (subread_index : Option (Nat × Nat))
    (modified_bases : Option (List (ModKey × List (Int × Nat)))) :
    Except String AlignData :=
  let seq := pySlice r.seq start stop
  let qual := pySlice r.qual start stop
  let tags := subreadBaseTags r modTags start stop add_mi_tag add_xc_tag subread_index
  match modified_bases with
  | some mb =>
    if mb.isEmpty then
      .ok { name := name, seq := seq, qual := qual, tags := tags }
    else
      match buildModTags seq start stop mb "MM:Z:" "ML:B:" with
      | .error e => .error e
      | .ok (mm, ml) =>
        .ok { name := name, seq := seq, qual := qual, tags := tags ++ [mm, ml] }
  | none => .ok { name := name, seq := seq, qual := qual, tags := tags }

/-- The offset-list preparation of `AlignData.split`: with no cut sites use
`[0, read_length]`; otherwise sort, prepend `0` when the first element is
not `0`, and append `read_length` when the last element is not
`read_length`. -/
def splitPositions (read_length : Int) (positions : List Int) : List Int :=
  if positions.isEmpty then
    [0, read_length]
  else
    let ps := List.insertionSort (· ≤ ·) positions
    let ps := if ps.headD 0 ≠ 0 then 0 :: ps else ps
    if ps.getLast? ≠ some read_length then ps ++ [read_length] else ps

/-- Python `list(zip(positions[:-1], positions[1:]))` applied to the prepared
offsets: the consecutive interval pairs of `AlignData.split`. -/
def splitIntervals (read_length : Int) (positions : List Int) : List (Int × Int) :=
  let ps := splitPositions read_length positions
  ps.zip ps.tail

/-- The subread loop of `AlignData.split`, carrying the running index `x`. -/
def splitLoop (r : AlignData) (modTags : List String)
    (mb : Option (List (ModKey × List (Int × Nat)))) (n : Nat) :
    List (Int × Int) → Nat → Except String (List AlignData)
  | [], _ => .ok []
  | (s, e) :: rest, x =>
    match getSubread r modTags s e
        (r.name ++ ":" ++ toString (x + 1) ++ "_" ++ toString n)
        true true (some (x, n)) mb with
    | .error err => .error err
    | .ok sub =>
      match splitLoop r modTags mb n rest (x + 1) with
      | .error err => .error err
      | .ok subs => .ok (sub :: subs)

/-- Embedding of `AlignData.split`.  `decoded` is the mapping the external
pysam call `self.to_pysam().modified_bases` would return for this record; as
in the source it is consulted only when `has_mods` holds. -/
def splitRead (r : AlignData) (modTags : List String)
    (decoded : List (ModKey × List (Int × Nat))) (positions : List Int) :
    Except String (List AlignData) :=
  let intervals := splitIntervals r.seq.length positions
  let mb := if hasMods modTags r then some decoded else none
  splitLoop r modTags mb intervals.length intervals 0

/-- Embedding of `AlignData.to_fastq`. -/
def toFastq (r : AlignData) (with_tags : Bool) : Except String String :=
  let tag_str := if with_tags then String.intercalate "\t" r.tags else ""
  if r.qual = ['*'] then
    .error ("No quality, cannot write fastq for " ++ r.name)
  else
    .ok ("@" ++ r.name ++ " " ++ tag_str ++ "\n" ++ String.mk r.seq ++ "\n+\n"
      ++ String.mk r.qual ++ "\n")

/-- Checker for the tiling property: the intervals, read left to right, form
a contiguous chain from `a` to `b` with every interval ascending
(`s ≤ e`).  `chainFromB 0 I L` says the intervals concatenated in order
exactly reconstruct `[0, L)` with no gap or overlap, in ascending order. -/
def chainFromB : Int → List (Int × Int) → Int → Bool
  | a, [], b => a == b
  | a, (s, e) :: rest, b => a == s && decide (s ≤ e) && chainFromB e rest b

/-- The tiling property of the spec for a read of length `read_length`. -/
def tiles (read_length : Int) (I : List (Int × Int)) : Prop :=
  chainFromB 0 I read_length = true

/-- Modelled from the spec: the offset preparation as the spec words it —
"sort and deduplicate offsets; prepend `0` if absent; append
`len(sequence)` if absent" (the `split` source does not deduplicate; this
definition exists to be compared with `splitPositions`). -/
def specSplitPositions (read_length : Int) (positions : List Int) : List Int :=
  if positions.isEmpty then
    [0, read_length]
  else
    let ps := (List.insertionSort (· ≤ ·) positions).dedup
    let ps := if 0 ∈ ps then ps else 0 :: ps
    if read_length ∈ ps then ps else ps ++ [read_length]

/-! ### Helper lemmas -/

theorem pyIndex_natCast (len : Nat) : pyIndex len (len : Int) = len := by
  simp [pyIndex]

theorem pyIndex_zero (len : Nat) : pyIndex len 0 = 0 := by
  simp [pyIndex]

theorem pySlice_zero_length {α : Type} (s : List α) :
    pySlice s 0 (s.length : Int) = s := by
  simp [pySlice, pyIndex_natCast, pyIndex_zero]

theorem getSubread_ok_fields {r : AlignData} {mt : List String} {a b : Int}
    {nm : String} {ami axt : Bool} {si : Option (Nat × Nat)}
    {mb : Option (List (ModKey × List (Int × Nat)))} {c : AlignData}
    (h : getSubread r mt a b nm ami axt si mb = .ok c) :
    c.name = nm ∧ c.seq = pySlice r.seq a b ∧ c.qual = pySlice r.qual a b := by
  unfold getSubread at h
  cases mb with
  | none =>
    cases h
    exact ⟨rfl, rfl, rfl⟩
  | some m =>
    by_cases hm : m.isEmpty
    · simp only [hm, if_true] at h
      cases h
      exact ⟨rfl, rfl, rfl⟩
    · simp only [hm, if_false] at h
      cases hb : buildModTags (pySlice r.seq a b) a b m "MM:Z:" "ML:B:" with
      | error e => rw [hb] at h; cases h
      | ok p =>
        rw [hb] at h
        cases p with
        | mk mm ml =>
          cases h
          exact ⟨rfl, rfl, rfl⟩

theorem getSubread_ok_tags {r : AlignData} {mt : List String} {a b : Int}
    {nm : String} {ami axt : Bool} {si : Option (Nat × Nat)}
    {mb : Option (List (ModKey × List (Int × Nat)))} {c : AlignData}
    (h : getSubread r mt a b nm ami axt si mb = .ok c) :
    c.tags = subreadBaseTags r mt a b ami axt si ∨
    ∃ m mm ml, mb = some m ∧ m.isEmpty = false ∧
      buildModTags (pySlice r.seq a b) a b m "MM:Z:" "ML:B:" = .ok (mm, ml) ∧
      c.tags = subreadBaseTags r mt a b ami axt si ++ [mm, ml] := by
  unfold getSubread at h
  cases mb with
  | none =>
    cases h
    exact Or.inl rfl
  | some m =>
    by_cases hm : m.isEmpty
    · simp only [hm, if_true] at h
      cases h
      exact Or.inl rfl
    · simp only [hm, if_false] at h
      cases hb : buildModTags (pySlice r.seq a b) a b m "MM:Z:" "ML:B:" with
      | error e => rw [hb] at h; cases h
      | ok p =>
        rw [hb] at h
        cases p with
        | mk mm ml =>
          cases h
          exact Or.inr ⟨m, mm, ml, rfl, Bool.eq_false_iff.mpr hm, hb, rfl⟩

theorem xc_mem_subreadBaseTags (r : AlignData) (mt : List String) (a b : Int)
    (ami : Bool) (x n : Nat) :
    ("Xc:B:i," ++ toString a ++ "," ++ toString b ++ "," ++ toString x ++ ","
      ++ toString n) ∈ subreadBaseTags r mt a b ami true (some (x, n)) := by
  unfold subreadBaseTags
  simp

theorem splitLoop_ok_length {r : AlignData} {mt : List String}
    {mb : Option (List (ModKey × List (Int × Nat)))} {n : Nat} :
    ∀ (ivs : List (Int × Int)) (x : Nat) (cs : List AlignData),
      splitLoop r mt mb n ivs x = .ok cs → cs.length = ivs.length := by
  intro ivs
  induction ivs with
  | nil =>
    intro x cs h
    cases h
    rfl
  | cons iv rest ih =>
    intro x cs h
    obtain ⟨s, e⟩ := iv
    unfold splitLoop at h
    cases hg : getSubread r mt s e
        (r.name ++ ":" ++ toString (x + 1) ++ "_" ++ toString n)
        true true (some (x, n)) mb with
    | error err => rw [hg] at h; cases h
    | ok sub =>
      rw [hg] at h
      cases hrec : splitLoop r mt mb n rest (x + 1) with
      | error err => rw [hrec] at h; cases h
      | ok subs =>
        rw [hrec] at h
        cases h
        simpa using ih (x + 1) subs hrec

theorem splitLoop_ok_get {r : AlignData} {mt : List String}
    {mb : Option (List (ModKey × List (Int × Nat)))} {n : Nat} :
    ∀ (ivs : List (Int × Int)) (x0 : Nat) (cs : List AlignData),
      splitLoop r mt mb n ivs x0 = .ok cs →
      ∀ (i : Nat) (hi : i < cs.length), ∃ s e,
        ivs.get? i = some (s, e) ∧
        getSubread r mt s e
          (r.name ++ ":" ++ toString (x0 + i + 1) ++ "_" ++ toString n)
          true true (some (x0 + i, n)) mb = .ok (cs.get ⟨i, hi⟩) := by
  intro ivs
  induction ivs with
  | nil =>
    intro x0 cs h i hi
    cases h
    exact absurd hi (by simp)
  | cons iv rest ih =>
    intro x0 cs h i hi
    obtain ⟨s, e⟩ := iv
    unfold splitLoop at h
    cases hg : getSubread r mt s e
        (r.name ++ ":" ++ toString (x0 + 1) ++ "_" ++ toString n)
        true true (some (x0, n)) mb with
    | error err => rw [hg] at h; cases h
    | ok sub =>
      rw [hg] at h
      cases hrec : splitLoop r mt mb n rest (x0 + 1) with
      | error err => rw [hrec] at h; cases h
      | ok subs =>
        rw [hrec] at h
        cases h
        cases i with
        | zero => exact ⟨s, e, rfl, by simpa using hg⟩
        | succ j =>
          have hj : j < subs.length := by simpa using hi
          obtain ⟨s', e', hget, hsub⟩ := ih (x0 + 1) subs hrec j hj
          refine ⟨s', e', by simpa using hget, ?_⟩
          have harith : x0 + 1 + j = x0 + (j + 1) := by omega
          rw [harith] at hsub
          simpa using hsub

theorem splitLoop_none_ok {r : AlignData} {mt : List String} {n : Nat} :
    ∀ (ivs : List (Int × Int)) (x : Nat), ∃ cs,
      splitLoop r mt none n ivs x = .ok cs := by
  intro ivs
  induction ivs with
  | nil => exact fun x => ⟨[], rfl⟩
  | cons iv rest ih =>
    intro x
    obtain ⟨s, e⟩ := iv
    obtain ⟨cs, hcs⟩ := ih (x + 1)
    obtain ⟨c, hc⟩ : ∃ c, getSubread r mt s e
        (r.name ++ ":" ++ toString (x + 1) ++ "_" ++ toString n)
        true true (some (x, n)) none = .ok c := ⟨_, rfl⟩
    exact ⟨c :: cs, by simp only [splitLoop, hc, hcs]⟩

theorem deltaLoop_length (offs : List Int) (a : Int) :
    ∀ (l : List Nat) (c : Nat),
      (deltaLoop offs a l c).length =
        (l.filter (fun (i : Nat) => decide (((i : Int) + a) ∈ offs))).length := by
  intro l
  induction l with
  | nil => intro c; rfl
  | cons i rest ih =>
    intro c
    by_cases hmem : ((i : Int) + a) ∈ offs
    · simp [deltaLoop, hmem, ih]
    · simp [deltaLoop, hmem, ih]

theorem chainFromB_zip_tail :
    ∀ (qs : List Int), List.Sorted (· ≤ ·) qs → ∀ a b : Int,
      qs.head? = some a → qs.getLast? = some b →
      chainFromB a (qs.zip qs.tail) b = true := by
  intro qs
  induction qs with
  | nil =>
    intro _ a b h
    cases h
  | cons x xs ih =>
    intro hsort a b hh hl
    cases xs with
    | nil =>
      cases hh
      cases hl
      simp [chainFromB]
    | cons y ys =>
      cases hh
      have hxy : x ≤ y := (List.sorted_cons.mp hsort).1 y (by simp)
      have hl' : (y :: ys).getLast? = some b := by
        rw [List.getLast?_cons_cons] at hl
        exact hl
      have hrec := ih (List.sorted_cons.mp hsort).2 y b rfl hl'
      simp only [List.tail_cons, List.zip_cons_cons, chainFromB, Bool.and_eq_true,
        beq_iff_eq, decide_eq_true_eq]
      refine ⟨⟨by simp, hxy⟩, ?_⟩
      simpa [List.tail_cons] using hrec

theorem append_last_facts (s1 : List Int) (L a : Int)
    (h1so : List.Sorted (· ≤ ·) s1) (h1mem : ∀ x ∈ s1, x ≤ L)
    (h1ne : s1 ≠ []) (h1head : s1.head? = some a) :
    List.Sorted (· ≤ ·) (if s1.getLast? ≠ some L then s1 ++ [L] else s1) ∧
    (if s1.getLast? ≠ some L then s1 ++ [L] else s1).head? = some a ∧
    (if s1.getLast? ≠ some L then s1 ++ [L] else s1).getLast? = some L := by
  by_cases hc : s1.getLast? = some L
  · rw [if_neg (not_not_intro hc)]
    exact ⟨h1so, h1head, hc⟩
  · rw [if_pos hc]
    refine ⟨?_, ?_, List.getLast?_concat s1⟩
    · exact List.pairwise_append.mpr
        ⟨h1so, List.sorted_singleton L, fun x hx y hy => by
          simp only [List.mem_singleton] at hy
          exact hy ▸ h1mem x hx⟩
    · rw [List.head?_append_of_ne_nil s1 h1ne]
      exact h1head

theorem splitPositions_facts (L : Int) (hL : 0 ≤ L) (ps : List Int)
    (hps : ∀ p ∈ ps, 0 ≤ p ∧ p ≤ L) :
    List.Sorted (· ≤ ·) (splitPositions L ps) ∧
    (splitPositions L ps).head? = some 0 ∧
    (splitPositions L ps).getLast? = some L := by
  by_cases hnil : ps.isEmpty
  · simp only [splitPositions, hnil, if_true]
    exact ⟨List.sorted_cons.mpr ⟨by simpa using hL, by simp⟩, rfl, by simp⟩
  · have hnil' : ps.isEmpty = false := by simpa using hnil
    have hpsne : ps ≠ [] := by
      cases ps
      · simp at hnil'
      · simp
    have hso : List.Sorted (· ≤ ·) (List.insertionSort (· ≤ ·) ps) :=
      List.sorted_insertionSort _ ps
    have hperm : (List.insertionSort (· ≤ ·) ps).Perm ps :=
      List.perm_insertionSort _ ps
    have hmem : ∀ x ∈ List.insertionSort (· ≤ ·) ps, 0 ≤ x ∧ x ≤ L :=
      fun x hx => hps x (hperm.mem_iff.mp hx)
    have hne : List.insertionSort (· ≤ ·) ps ≠ [] := by
      intro hcon
      exact hpsne (List.Perm.eq_nil (hcon ▸ hperm.symm))
    set ss := List.insertionSort (· ≤ ·) ps with hss
    have hunf : splitPositions L ps =
        (if (if ss.headD 0 ≠ 0 then 0 :: ss else ss).getLast? ≠ some L
          then (if ss.headD 0 ≠ 0 then 0 :: ss else ss) ++ [L]
          else (if ss.headD 0 ≠ 0 then 0 :: ss else ss)) := by
      simp only [splitPositions, hnil', Bool.false_eq_true, if_false]
    rw [hunf]
    have h1so : List.Sorted (· ≤ ·) (if ss.headD 0 ≠ 0 then 0 :: ss else ss) := by
      split
      · exact List.sorted_cons.mpr ⟨fun b hb => (hmem b hb).1, hso⟩
      · exact hso
    have h1mem : ∀ x ∈ (if ss.headD 0 ≠ 0 then 0 :: ss else ss), x ≤ L := by
      split
      · intro x hx
        rcases List.mem_cons.mp hx with h | h
        · exact h ▸ hL
        · exact (hmem x h).2
      · exact fun x hx => (hmem x hx).2
    have h1ne : (if ss.headD 0 ≠ 0 then 0 :: ss else ss) ≠ [] := by
      split
      · simp
      · exact hne
    have h1head : (if ss.headD 0 ≠ 0 then 0 :: ss else ss).head? = some 0 := by
      split
      · simp
      · rename_i hcond
        rw [not_not] at hcond
        cases hss' : ss with
        | nil => exact absurd hss' hne
        | cons z zs =>
          rw [hss'] at hcond
          simp only [List.headD_cons] at hcond
          simp [hcond]
    exact append_last_facts _ L 0 h1so h1mem h1ne h1head

/-! ### Claims C1, C2, C3 -/

/-- C1 (amended): for every record and every list of cut offsets whose
elements all lie in `[0, len(sequence)]`, the intervals `split` forms —
concatenated in returned order — exactly reconstruct `[0, len(sequence))`
with no gap or overlap, in ascending order; and on success `split` returns
one child per interval.  (As literally stated, over arbitrary offset lists,
the claim is false: see the counterexample with an offset beyond the
sequence end.) -/
theorem C1_split_intervals_tile (r : AlignData) (ps : List Int)
    (hps : ∀ p ∈ ps, 0 ≤ p ∧ p ≤ (r.seq.length : Int)) :
    tiles (r.seq.length) (splitIntervals (r.seq.length) ps) ∧
    ∀ (mt : List String) (dec : List (ModKey × List (Int × Nat)))
      (cs : List AlignData),
      splitRead r mt dec ps = .ok cs →
      cs.length = (splitIntervals (r.seq.length) ps).length := by
  constructor
  · obtain ⟨hso, hh, hl⟩ :=
      splitPositions_facts _ (Int.natCast_nonneg _) ps hps
    exact chainFromB_zip_tail _ hso 0 _ hh hl
  · intro mt dec cs h
    unfold splitRead at h
    exact splitLoop_ok_length _ _ _ h

/-- C1 witness: the tiling theorem applied to the record of sequence
`AACATGAA` cut at offset 4 (the spec's own scenario). -/
theorem C1_split_intervals_tile_witness :
    (∀ p ∈ ([4] : List Int), 0 ≤ p ∧
      p ≤ (({ name := "read", seq := ['A','A','C','A','T','G','A','A'] }
        : AlignData).seq.length : Int)) ∧
    tiles (({ name := "read", seq := ['A','A','C','A','T','G','A','A'] }
        : AlignData).seq.length)
      (splitIntervals
        (({ name := "read", seq := ['A','A','C','A','T','G','A','A'] }
          : AlignData).seq.length) [4]) :=
  ⟨by decide,
   (C1_split_intervals_tile
     { name := "read", seq := ['A','A','C','A','T','G','A','A'] } [4]
     (by decide)).1⟩

/-- C1 counterexample: a record of length 2 split at the out-of-range offset
3 yields the intervals `[(0,3),(3,2)]`, which do not tile `[0,2)`: `split`
does not validate offsets, so the claim fails for arbitrary offset lists. -/
theorem C1_counterexample :
    ¬ tiles (({ name := "r", seq := ['A','C'] } : AlignData).seq.length)
      (splitIntervals
        (({ name := "r", seq := ['A','C'] } : AlignData).seq.length) [3]) := by
  simp only [tiles]
  decide

/-- C2 (amended): when the cut-offset list is non-empty, `split` sorts — but
does not deduplicate — the offsets, prepends `0` when the first sorted
element is not `0`, and appends `len(sequence)` when the last element is not
`len(sequence)`, before forming the consecutive interval pairs.  (The
deduplication asserted by the claim does not happen: see the
counterexample.) -/
theorem C2_sort_no_dedup (L : Int) (ps : List Int) (hps : ps ≠ []) :
    ∃ s : List Int, ps.Perm s ∧ List.Sorted (· ≤ ·) s ∧
      splitPositions L ps =
        (if (if s.headD 0 ≠ 0 then 0 :: s else s).getLast? ≠ some L
          then (if s.headD 0 ≠ 0 then 0 :: s else s) ++ [L]
          else (if s.headD 0 ≠ 0 then 0 :: s else s)) := by
  refine ⟨List.insertionSort (· ≤ ·) ps, (List.perm_insertionSort _ ps).symm,
    List.sorted_insertionSort _ ps, ?_⟩
  have hnil' : ps.isEmpty = false := by
    cases ps
    · exact absurd rfl hps
    · simp
  simp only [splitPositions, hnil', Bool.false_eq_true, if_false]

/-- C2 witness: the amended preparation theorem applied to offsets `[3]` on a
read of length 5. -/
theorem C2_sort_no_dedup_witness :
    (([3] : List Int) ≠ []) ∧
    ∃ s : List Int, ([3] : List Int).Perm s ∧ List.Sorted (· ≤ ·) s ∧
      splitPositions 5 [3] =
        (if (if s.headD 0 ≠ 0 then 0 :: s else s).getLast? ≠ some (5 : Int)
          then (if s.headD 0 ≠ 0 then 0 :: s else s) ++ [5]
          else (if s.headD 0 ≠ 0 then 0 :: s else s)) :=
  ⟨by decide, C2_sort_no_dedup 5 [3] (by decide)⟩

/-- C2 counterexample: duplicate offsets `[3, 3]` on a read of length 5 are
kept, giving positions `[0,3,3,5]`, while the sort-and-deduplicate
preparation the claim describes (modelled by `specSplitPositions`) would
give `[0,3,5]`. -/
theorem C2_counterexample :
    splitPositions 5 [3, 3] = [0, 3, 3, 5] ∧
    specSplitPositions 5 [3, 3] = [0, 3, 5] ∧
    splitPositions 5 [3, 3] ≠ specSplitPositions 5 [3, 3] := by
  decide

/-- C3 (amended): `split` performs no validation of the requested offsets —
every requested offset, even one outside `[0, len(sequence)]`, appears among
the offsets actually used for splitting, and (for a record without
modification tags) splitting never fails.  (The `MalformedRecord` failure
asserted by the claim does not exist in the code: see the counterexample,
where a negative offset is used without error.) -/
theorem C3_no_offset_validation (r : AlignData) (mt : List String)
    (dec : List (ModKey × List (Int × Nat))) (ps : List Int) (p : Int)
    (hp : p ∈ ps) (hm : hasMods mt r = false) :
    p ∈ splitPositions (r.seq.length) ps ∧
    ∃ cs, splitRead r mt dec ps = .ok cs := by
  constructor
  · have hnil' : ps.isEmpty = false := by
      cases ps
      · simp at hp
      · simp
    simp only [splitPositions, hnil', Bool.false_eq_true, if_false]
    have hmem : p ∈ List.insertionSort (· ≤ ·) ps :=
      (List.perm_insertionSort _ ps).mem_iff.mpr hp
    split
    · split
      · exact List.mem_append_left _ (List.mem_cons_of_mem _ hmem)
      · exact List.mem_cons_of_mem _ hmem
    · split
      · exact List.mem_append_left _ hmem
      · exact hmem
  · unfold splitRead
    simp only [hm, Bool.false_eq_true, if_false]
    exact splitLoop_none_ok _ _

/-- C3 witness: the no-validation theorem applied to the out-of-range offset
`-1` on a tag-free record of length 3. -/
theorem C3_no_offset_validation_witness :
    ((-1 : Int) ∈ ([-1] : List Int)) ∧
    hasMods [] { name := "r", seq := ['A','C','G'] } = false ∧
    ((-1 : Int) ∈ splitPositions
      (({ name := "r", seq := ['A','C','G'] } : AlignData).seq.length) [-1] ∧
    ∃ cs, splitRead { name := "r", seq := ['A','C','G'] } [] [] [-1] = .ok cs) :=
  ⟨by decide, by decide,
   C3_no_offset_validation { name := "r", seq := ['A','C','G'] } [] [] [-1] (-1)
     (by decide) (by decide)⟩

/-- C3 counterexample: splitting the record `ACG` at the offset `-1` uses the
offset `-1` (which is outside `[0, 3]`) and succeeds with two children — no
`MalformedRecord`-style failure occurs. -/
theorem C3_counterexample :
    ((-1 : Int) ∈ splitPositions
      (({ name := "r", seq := ['A','C','G'] } : AlignData).seq.length) [-1]) ∧
    ¬ (0 ≤ (-1 : Int)) ∧
    ∃ cs, splitRead { name := "r", seq := ['A','C','G'] } [] [] [-1] = .ok cs ∧
      cs.length = 2 := by
  exact ⟨by decide, by decide, ⟨_, rfl, rfl⟩⟩

/-! ### Claims C7, C5 -/

/-- C7: FASTQ serialization fails exactly when the record carries the
no-quality sentinel `"*"`, and on success returns the four-line FASTQ text
`@name tags\nseq\n+\nqual\n`. -/
theorem C7_to_fastq_iff (r : AlignData) (wt : Bool) :
    ((∃ e, toFastq r wt = .error e) ↔ r.qual = ['*']) ∧
    (r.qual ≠ ['*'] → toFastq r wt =
      .ok ("@" ++ r.name ++ " "
        ++ (if wt then String.intercalate "\t" r.tags else "") ++ "\n"
        ++ String.mk r.seq ++ "\n+\n" ++ String.mk r.qual ++ "\n")) := by
  unfold toFastq
  by_cases hq : r.qual = ['*']
  · rw [if_pos hq]
    exact ⟨⟨fun _ => hq, fun _ => ⟨_, rfl⟩⟩, fun hne => absurd hq hne⟩
  · rw [if_neg hq]
    refine ⟨⟨?_, fun h => absurd h hq⟩, fun _ => rfl⟩
    rintro ⟨e, he⟩
    cases he

/-- C7 witness: a record with quality `I` serializes without error to its
four-line FASTQ text, and a record with the `"*"` sentinel fails. -/
theorem C7_to_fastq_iff_witness :
    (({ name := "q", seq := ['A'], qual := ['I'] } : AlignData).qual ≠ ['*']) ∧
    toFastq { name := "q", seq := ['A'], qual := ['I'] } true =
      .ok "@q \nA\n+\nI\n" := by
  refine ⟨by decide, ?_⟩
  exact (C7_to_fastq_iff { name := "q", seq := ['A'], qual := ['I'] } true).2
    (by decide)

/-- C5: for each modification key independently, exactly the (offset,
probability) pairs whose parent-frame offset lies in `[start, stop)` are
selected — pairs outside the window are invisible to the per-key encoding,
the probabilities emitted for a key are exactly those of the selected pairs,
and a key with no qualifying pair is skipped (`.ok none`) and contributes
nothing to the child's `MM`/`ML` strings. -/
theorem C5_mod_selection (sq : List Char) (a b : Int) (k : ModKey)
    (d : List (Int × Nat)) (rest : List (ModKey × List (Int × Nat)))
    (mm0 ml0 : String) :
    (processKey sq a b k d = .ok none ↔ (d.filter (inRange a b)).isEmpty = true) ∧
    processKey sq a b k d = processKey sq a b k (d.filter (inRange a b)) ∧
    (∀ res : String × String, processKey sq a b k d = .ok (some res) →
      res.2 = String.mk [k.canonical_base] ++ ","
        ++ String.intercalate ","
            (((d.filter (inRange a b)).map Prod.snd).map toString) ++ ";") ∧
    (processKey sq a b k d = .ok none →
      buildModTags sq a b ((k, d) :: rest) mm0 ml0 =
        buildModTags sq a b rest mm0 ml0) := by
  have hff : (d.filter (inRange a b)).filter (inRange a b) =
      d.filter (inRange a b) := by
    rw [List.filter_filter]
    simp [Bool.and_self]
  refine ⟨?_, ?_, ?_, ?_⟩
  · unfold processKey
    by_cases he : (d.filter (inRange a b)).isEmpty
    · rw [if_pos he]
      simp [he]
    · rw [if_neg he]
      simp only [he, iff_false]
      split
      · simp
      · simp
  · unfold processKey
    rw [hff]
  · unfold processKey
    by_cases he : (d.filter (inRange a b)).isEmpty
    · rw [if_pos he]
      intro res hres
      cases hres
    · rw [if_neg he]
      by_cases hlen :
          (deltaLoop ((d.filter (inRange a b)).map Prod.fst) a
            (baseIndices sq k.canonical_base) 0).length =
          ((d.filter (inRange a b)).map Prod.snd).length
      · rw [if_pos hlen]
        intro res hres
        cases hres
        rfl
      · rw [if_neg hlen]
        intro res hres
        cases hres
  · intro h
    simp only [buildModTags, h]

/-- C5 witness: the selection theorem applied to a two-`C` subread with two
in-window pairs (both probabilities emitted, in order) and to a key whose
only pair lies outside the window (key skipped, no contribution). -/
theorem C5_mod_selection_witness :
    (processKey ['C','C'] 0 2 ⟨'C', 0, "", "m"⟩ [(0, 5), (1, 7)] =
      .ok (some ("C+m,0,0;", "C,5,7;"))) ∧
    (("C,5,7;" : String) = String.mk ['C'] ++ ","
      ++ String.intercalate ","
          ((([((0 : Int), (5 : Nat)), (1, 7)].filter (inRange 0 2)).map
            Prod.snd).map toString) ++ ";") ∧
    buildModTags ['C','C'] 0 2 [(⟨'C', 0, "", "m"⟩, [(5, 9)])] "MM:Z:" "ML:B:" =
      buildModTags ['C','C'] 0 2 [] "MM:Z:" "ML:B:" := by
  refine ⟨by rfl, ?_, ?_⟩
  · exact (C5_mod_selection ['C','C'] 0 2 ⟨'C', 0, "", "m"⟩ [(0, 5), (1, 7)]
      [] "MM:Z:" "ML:B:").2.2.1 ("C+m,0,0;", "C,5,7;") (by rfl)
  · exact (C5_mod_selection ['C','C'] 0 2 ⟨'C', 0, "", "m"⟩ [(5, 9)]
      [] "MM:Z:" "ML:B:").2.2.2 (by rfl)

/-! ### Claim C4: the modification count invariant -/

theorem pySlice_length_of_le (seq : List Char) (start stop : Int)
    (h0 : 0 ≤ start) (h1 : start ≤ stop) (h2 : stop ≤ (seq.length : Int)) :
    (pySlice seq start stop).length = stop.toNat - start.toNat := by
  have hs : ¬ start < 0 := not_lt.mpr h0
  have ht : ¬ stop < 0 := not_lt.mpr (le_trans h0 h1)
  simp only [pySlice, pyIndex, hs, ht, if_false, List.length_take,
    List.length_drop]
  omega

theorem pySlice_getD_of_lt (seq : List Char) (start stop : Int) (i : Nat)
    (h0 : 0 ≤ start) (h1 : start ≤ stop) (h2 : stop ≤ (seq.length : Int))
    (hi : (i : Int) + start < stop) :
    (pySlice seq start stop).getD i ' ' = seq.getD (start.toNat + i) ' ' := by
  have hs : ¬ start < 0 := not_lt.mpr h0
  have ht : ¬ stop < 0 := not_lt.mpr (le_trans h0 h1)
  simp only [pySlice, pyIndex, hs, ht, if_false]
  rw [List.getD_eq_getElem?_getD, List.getD_eq_getElem?_getD,
    List.getElem?_take, if_pos (by omega), List.getElem?_drop]
  congr 2
  omega

theorem matched_count (seq : List Char) (start stop : Int) (B : Char)
    (selOffs : List Int) (hnd : selOffs.Nodup)
    (hrange : ∀ o ∈ selOffs, start ≤ o ∧ o < stop)
    (hvalid : ∀ o ∈ selOffs, 0 ≤ o ∧ o < (seq.length : Int) ∧
      (seq.getD o.toNat ' ').toUpper = B)
    (hstart : 0 ≤ start) (hstop : stop ≤ (seq.length : Int)) :
    ((baseIndices (pySlice seq start stop) B).filter
      (fun (i : Nat) => decide (((i : Int) + start) ∈ selOffs))).length =
      selOffs.length := by
  by_cases hne : selOffs = []
  · subst hne
    simp
  · obtain ⟨o0, ho0⟩ := List.exists_mem_of_ne_nil selOffs hne
    have hss : start ≤ stop :=
      le_of_lt (lt_of_le_of_lt (hrange o0 ho0).1 (hrange o0 ho0).2)
    have hmn : (baseIndices (pySlice seq start stop) B).Nodup :=
      (List.nodup_range _).filter _
    have hmatched_nodup :
        ((baseIndices (pySlice seq start stop) B).filter
          (fun (i : Nat) => decide (((i : Int) + start) ∈ selOffs))).Nodup :=
      hmn.filter _
    have hinj : Function.Injective (fun i : Nat => (i : Int) + start) := by
      intro i j hij
      simp only [] at hij
      omega
    have hmap_nodup := hmatched_nodup.map hinj
    have hiff : ∀ o : Int,
        (o ∈ ((baseIndices (pySlice seq start stop) B).filter
          (fun (i : Nat) => decide (((i : Int) + start) ∈ selOffs))).map
            (fun i : Nat => (i : Int) + start)) ↔ o ∈ selOffs := by
      intro o
      constructor
      · intro hmm
        obtain ⟨i, hi, hfi⟩ := List.mem_map.mp hmm
        have := (List.mem_filter.mp hi).2
        simp only [decide_eq_true_eq] at this
        exact hfi ▸ this
      · intro ho
        obtain ⟨hr1, hr2⟩ := hrange o ho
        obtain ⟨hv0, hv1, hv2⟩ := hvalid o ho
        refine List.mem_map.mpr ⟨(o - start).toNat, ?_, by omega⟩
        rw [List.mem_filter]
        constructor
        · unfold baseIndices
          rw [List.mem_filter]
          constructor
          · rw [List.mem_range,
              pySlice_length_of_le seq start stop hstart hss hstop]
            omega
          · rw [pySlice_getD_of_lt seq start stop (o - start).toNat hstart hss
              hstop (by omega)]
            have harith : start.toNat + (o - start).toNat = o.toNat := by omega
            rw [harith, hv2]
            simp
        · simp only [decide_eq_true_eq]
          have harith : (((o - start).toNat : Int)) + start = o := by omega
          rw [harith]
          exact ho
    have hperm := (List.perm_ext_iff_of_nodup hmap_nodup hnd).mpr hiff
    calc ((baseIndices (pySlice seq start stop) B).filter
          (fun (i : Nat) => decide (((i : Int) + start) ∈ selOffs))).length
        = (((baseIndices (pySlice seq start stop) B).filter
            (fun (i : Nat) => decide (((i : Int) + start) ∈ selOffs))).map
              (fun i : Nat => (i : Int) + start)).length :=
          (List.length_map _ _).symm
      _ = selOffs.length := hperm.length_eq

theorem wf_count_eq (seq : List Char) (start stop : Int)
    (k : ModKey) (modData : List (Int × Nat))
    (hnd : (modData.map Prod.fst).Nodup)
    (hvalid : ∀ p ∈ modData, 0 ≤ p.1 ∧ p.1 < (seq.length : Int) ∧
      (seq.getD p.1.toNat ' ').toUpper = k.canonical_base)
    (hstart : 0 ≤ start) (hstop : stop ≤ (seq.length : Int)) :
    (deltaLoop ((modData.filter (inRange start stop)).map Prod.fst) start
      (baseIndices (pySlice seq start stop) k.canonical_base) 0).length =
      ((modData.filter (inRange start stop)).map Prod.snd).length := by
  have hsub : ((modData.filter (inRange start stop)).map Prod.fst).Sublist
      (modData.map Prod.fst) :=
    List.Sublist.map Prod.fst (List.filter_sublist modData)
  have hselnd : ((modData.filter (inRange start stop)).map Prod.fst).Nodup :=
    hsub.nodup hnd
  have hselrange : ∀ o ∈ (modData.filter (inRange start stop)).map Prod.fst,
      start ≤ o ∧ o < stop := by
    intro o ho
    obtain ⟨p, hp, hpo⟩ := List.mem_map.mp ho
    have := (List.mem_filter.mp hp).2
    simp only [inRange, Bool.and_eq_true, decide_eq_true_eq] at this
    exact hpo ▸ this
  have hselvalid : ∀ o ∈ (modData.filter (inRange start stop)).map Prod.fst,
      0 ≤ o ∧ o < (seq.length : Int) ∧
      (seq.getD o.toNat ' ').toUpper = k.canonical_base := by
    intro o ho
    obtain ⟨p, hp, hpo⟩ := List.mem_map.mp ho
    exact hpo ▸ hvalid p (List.mem_filter.mp hp).1
  rw [deltaLoop_length, List.length_map,
    matched_count seq start stop k.canonical_base _ hselnd hselrange
      hselvalid hstart hstop, List.length_map]

theorem processKey_ok_of_wf (seq : List Char) (start stop : Int)
    (k : ModKey) (modData : List (Int × Nat))
    (hnd : (modData.map Prod.fst).Nodup)
    (hvalid : ∀ p ∈ modData, 0 ≤ p.1 ∧ p.1 < (seq.length : Int) ∧
      (seq.getD p.1.toNat ' ').toUpper = k.canonical_base)
    (hstart : 0 ≤ start) (hstop : stop ≤ (seq.length : Int)) :
    ∀ e, processKey (pySlice seq start stop) start stop k modData ≠
      .error e := by
  intro e
  unfold processKey
  by_cases he : (modData.filter (inRange start stop)).isEmpty
  · rw [if_pos he]
    intro hcon
    cases hcon
  · rw [if_neg he,
      if_pos (wf_count_eq seq start stop k modData hnd hvalid hstart hstop)]
    intro hcon
    cases hcon

/-- C4: for well-formed parent modification data (offsets pairwise distinct,
in range, each pointing at an occurrence of the key's canonical base) and a
child window `[start, stop)` with `0 ≤ start` and `stop ≤ len`, the number
of deltas emitted for a key equals the number of probabilities selected for
it and the per-key encoding does not fail; and whenever the two counts
disagree for a key with at least one selected pair, the encoding fails with
an error (the Python `assert`) rather than truncating. -/
theorem C4_mod_count_invariant (seq : List Char) (start stop : Int)
    (k : ModKey) (modData : List (Int × Nat))
    (hnd : (modData.map Prod.fst).Nodup)
    (hvalid : ∀ p ∈ modData, 0 ≤ p.1 ∧ p.1 < (seq.length : Int) ∧
      (seq.getD p.1.toNat ' ').toUpper = k.canonical_base)
    (hstart : 0 ≤ start) (hstop : stop ≤ (seq.length : Int)) :
    ((deltaLoop ((modData.filter (inRange start stop)).map Prod.fst) start
        (baseIndices (pySlice seq start stop) k.canonical_base) 0).length =
      ((modData.filter (inRange start stop)).map Prod.snd).length) ∧
    (∀ e, processKey (pySlice seq start stop) start stop k modData ≠
      .error e) ∧
    (∀ (sq2 : List Char) (a2 b2 : Int) (k2 : ModKey) (d2 : List (Int × Nat)),
      (d2.filter (inRange a2 b2)).isEmpty = false →
      (deltaLoop ((d2.filter (inRange a2 b2)).map Prod.fst) a2
        (baseIndices sq2 k2.canonical_base) 0).length ≠
        ((d2.filter (inRange a2 b2)).map Prod.snd).length →
      ∃ e, processKey sq2 a2 b2 k2 d2 = .error e) := by
  refine ⟨wf_count_eq seq start stop k modData hnd hvalid hstart hstop,
    processKey_ok_of_wf seq start stop k modData hnd hvalid hstart hstop, ?_⟩
  intro sq2 a2 b2 k2 d2 hne2 hlen2
  unfold processKey
  rw [if_neg (by simp [hne2]), if_neg hlen2]
  exact ⟨_, rfl⟩

/-- C4 witness: the count theorem applied to the parent sequence `ACGC` with
5mC calls at offsets 1 and 3 and the child window `[2, 4)`. -/
theorem C4_mod_count_invariant_witness :
    ((([((1 : Int), (200 : Nat)), (3, 150)].map Prod.fst).Nodup) ∧
     (∀ p ∈ [((1 : Int), (200 : Nat)), (3, 150)],
        0 ≤ p.1 ∧ p.1 < ((['A','C','G','C'] : List Char).length : Int) ∧
        ((['A','C','G','C'] : List Char).getD p.1.toNat ' ').toUpper = 'C')) ∧
    ((deltaLoop (([((1 : Int), (200 : Nat)), (3, 150)].filter
          (inRange 2 4)).map Prod.fst) 2
        (baseIndices (pySlice ['A','C','G','C'] 2 4) 'C') 0).length =
      (([((1 : Int), (200 : Nat)), (3, 150)].filter
          (inRange 2 4)).map Prod.snd).length) ∧
    (∀ e, processKey (pySlice ['A','C','G','C'] 2 4) 2 4 ⟨'C', 0, "", "m"⟩
      [((1 : Int), (200 : Nat)), (3, 150)] ≠ .error e) := by
  have h := C4_mod_count_invariant ['A','C','G','C'] 2 4 ⟨'C', 0, "", "m"⟩
    [((1 : Int), (200 : Nat)), (3, 150)] (by decide) (by decide)
    (by decide) (by decide)
  exact ⟨⟨by decide, by decide⟩, h.1, h.2.1⟩

/-! ### Claim C6: no-cut idempotence -/

theorem buildModTags_ok_of_wf (seq : List Char) (a b : Int)
    (hstart : 0 ≤ a) (hstop : b ≤ (seq.length : Int)) :
    ∀ (mbs : List (ModKey × List (Int × Nat))),
      (∀ kd ∈ mbs, (kd.2.map Prod.fst).Nodup ∧
        ∀ p ∈ kd.2, 0 ≤ p.1 ∧ p.1 < (seq.length : Int) ∧
          (seq.getD p.1.toNat ' ').toUpper = kd.1.canonical_base) →
      ∀ mm0 ml0 : String, ∃ mm ml,
        buildModTags (pySlice seq a b) a b mbs mm0 ml0 = .ok (mm, ml) := by
  intro mbs
  induction mbs with
  | nil => exact fun _ mm0 ml0 => ⟨mm0, ml0, rfl⟩
  | cons kd rest ih =>
    intro hwf mm0 ml0
    obtain ⟨k, d⟩ := kd
    have hhead := hwf (k, d) (List.mem_cons_self _ _)
    cases hpk : processKey (pySlice seq a b) a b k d with
    | error e =>
      exact absurd hpk
        (processKey_ok_of_wf seq a b k d hhead.1 hhead.2 hstart hstop e)
    | ok o =>
      have hrest := fun kd hkd => hwf kd (List.mem_cons_of_mem _ hkd)
      cases o with
      | none =>
        obtain ⟨mm, ml, hrec⟩ := ih hrest mm0 ml0
        refine ⟨mm, ml, ?_⟩
        simp only [buildModTags, hpk]
        exact hrec
      | some p =>
        obtain ⟨mmf, mlf⟩ := p
        obtain ⟨mm, ml, hrec⟩ := ih hrest (mm0 ++ mmf) (ml0 ++ mlf)
        refine ⟨mm, ml, ?_⟩
        simp only [buildModTags, hpk]
        exact hrec

/-- C6: splitting any record (with well-formed decoded modification data, as
pysam produces) with an empty cut-offset list yields exactly one child whose
sequence equals the parent's and whose name is `{parent}:1_1`. -/
theorem C6_no_cut_single_child (r : AlignData) (mt : List String)
    (dec : List (ModKey × List (Int × Nat)))
    (hwf : ∀ kd ∈ dec, (kd.2.map Prod.fst).Nodup ∧
      ∀ p ∈ kd.2, 0 ≤ p.1 ∧ p.1 < (r.seq.length : Int) ∧
        (r.seq.getD p.1.toNat ' ').toUpper = kd.1.canonical_base) :
    ∃ c, splitRead r mt dec [] = .ok [c] ∧ c.seq = r.seq ∧
      c.name = r.name ++ ":1_1" := by
  have hiv : splitIntervals ((r.seq.length : Int)) [] =
      [(0, (r.seq.length : Int))] := rfl
  have hname : r.name ++ ":" ++ toString (0 + 1 : Nat) ++ "_" ++
      toString (1 : Nat) = r.name ++ ":1_1" := by
    rw [String.append_assoc, String.append_assoc, String.append_assoc]
    rfl
  have hget : ∃ c, getSubread r mt 0 (r.seq.length : Int)
      (r.name ++ ":" ++ toString (0 + 1 : Nat) ++ "_" ++ toString (1 : Nat))
      true true (some (0, 1))
      (if hasMods mt r then some dec else none) = .ok c := by
    by_cases hm : hasMods mt r
    · rw [if_pos hm]
      by_cases hd : dec.isEmpty
      · have heq : getSubread r mt 0 (r.seq.length : Int)
            (r.name ++ ":" ++ toString (0 + 1 : Nat) ++ "_" ++
              toString (1 : Nat)) true true (some (0, 1)) (some dec) =
            .ok { name := r.name ++ ":" ++ toString (0 + 1 : Nat) ++ "_" ++
                    toString (1 : Nat),
                  seq := pySlice r.seq 0 (r.seq.length : Int),
                  qual := pySlice r.qual 0 (r.seq.length : Int),
                  tags := subreadBaseTags r mt 0 (r.seq.length : Int)
                    true true (some (0, 1)) } := by
          simp only [getSubread]
          rw [if_pos hd]
        exact ⟨_, heq⟩
      · obtain ⟨mm, ml, hb⟩ := buildModTags_ok_of_wf r.seq 0
          (r.seq.length : Int) (le_refl 0) (le_refl _) dec hwf "MM:Z:" "ML:B:"
        have heq : getSubread r mt 0 (r.seq.length : Int)
            (r.name ++ ":" ++ toString (0 + 1 : Nat) ++ "_" ++
              toString (1 : Nat)) true true (some (0, 1)) (some dec) =
            .ok { name := r.name ++ ":" ++ toString (0 + 1 : Nat) ++ "_" ++
                    toString (1 : Nat),
                  seq := pySlice r.seq 0 (r.seq.length : Int),
                  qual := pySlice r.qual 0 (r.seq.length : Int),
                  tags := subreadBaseTags r mt 0 (r.seq.length : Int)
                    true true (some (0, 1)) ++ [mm, ml] } := by
          simp only [getSubread]
          rw [if_neg hd, hb]
        exact ⟨_, heq⟩
    · rw [if_neg hm]
      exact ⟨_, rfl⟩
  obtain ⟨c, hc⟩ := hget
  refine ⟨c, ?_, ?_, ?_⟩
  · have hsplit : splitRead r mt dec [] =
        splitLoop r mt (if hasMods mt r then some dec else none) 1
          [(0, (r.seq.length : Int))] 0 := rfl
    rw [hsplit]
    unfold splitLoop
    rw [hc]
    rfl
  · rw [(getSubread_ok_fields hc).2.1]
    exact pySlice_zero_length r.seq
  · rw [(getSubread_ok_fields hc).1]
    exact hname

/-- C6 witness: the no-cut theorem applied to a record of sequence `AC` with
a 5mC call at offset 1. -/
theorem C6_no_cut_single_child_witness :
    (∀ kd ∈ [((⟨'C', 0, "", "m"⟩ : ModKey), [((1 : Int), (200 : Nat))])],
      (kd.2.map Prod.fst).Nodup ∧
      ∀ p ∈ kd.2, 0 ≤ p.1 ∧
        p.1 < ((({ name := "r", seq := ['A','C'], tags := ["MM:Z:C+m,0;"] } : AlignData)).seq.length : Int) ∧
        ((({ name := "r", seq := ['A','C'], tags := ["MM:Z:C+m,0;"] } : AlignData)).seq.getD p.1.toNat ' ').toUpper =
            kd.1.canonical_base) ∧
    ∃ c, splitRead { name := "r", seq := ['A','C'], tags := ["MM:Z:C+m,0;"] }
        ["MM", "ML"] [((⟨'C', 0, "", "m"⟩ : ModKey), [((1 : Int), (200 : Nat))])]
        [] = .ok [c] ∧
      c.seq = (({ name := "r", seq := ['A','C'], tags := ["MM:Z:C+m,0;"] } : AlignData)).seq ∧
      c.name = (({ name := "r", seq := ['A','C'], tags := ["MM:Z:C+m,0;"] } : AlignData)).name ++ ":1_1" :=
  ⟨by decide,
   C6_no_cut_single_child
     { name := "r", seq := ['A','C'], tags := ["MM:Z:C+m,0;"] } ["MM", "ML"]
     [((⟨'C', 0, "", "m"⟩ : ModKey), [((1 : Int), (200 : Nat))])] (by decide)⟩

/-! ### Claim C8: quality slicing and the no-quality sentinel -/

theorem pySlice_star_zero (b : Int) (hb : 1 ≤ b) :
    pySlice ['*'] 0 b = ['*'] := by
  have hb' : pyIndex (['*'] : List Char).length b = 1 := by
    unfold pyIndex
    rw [if_neg (by omega)]
    simp only [List.length_cons, List.length_nil]
    omega
  unfold pySlice
  rw [hb']
  rfl

theorem pySlice_star_pos (a b : Int) (ha : 1 ≤ a) :
    pySlice ['*'] a b = [] := by
  have ha' : pyIndex (['*'] : List Char).length a = 1 := by
    unfold pyIndex
    rw [if_neg (by omega)]
    simp only [List.length_cons, List.length_nil]
    omega
  unfold pySlice
  rw [ha']
  simp

theorem toFastq_ok_of_empty_qual (c : AlignData) (hc : c.qual = []) :
    ∃ out, toFastq c true = .ok out := by
  have heq : toFastq c true = .ok ("@" ++ c.name ++ " "
      ++ String.intercalate "\t" c.tags ++ "\n" ++ String.mk c.seq
      ++ "\n+\n" ++ String.mk c.qual ++ "\n") := by
    unfold toFastq
    rw [if_neg (by rw [hc]; simp)]
    rfl
  exact ⟨_, heq⟩

/-- C8: the child at zero-based position `x` produced by `split` has as
quality the Python slice `parent.qual[start:end]` of its own interval —
the `x`-th entry of the interval list; in particular, when the parent's
quality is the one-character sentinel `"*"`, a child whose own interval
starts at `0` (with `end ≥ 1`) keeps quality `"*"`, while a child whose own
interval starts at or beyond position `1` gets the empty quality and is
then serialized by `to_fastq` without error — the sentinel is not preserved
across splitting. -/
theorem C8_qual_slice_sentinel (r : AlignData) (mt : List String)
    (dec : List (ModKey × List (Int × Nat))) (ps : List Int)
    (cs : List AlignData) :
    (splitRead r mt dec ps = .ok cs →
      ∀ (x : Nat) (hx : x < cs.length), ∃ s e : Int,
        (splitIntervals (r.seq.length) ps).get? x = some (s, e) ∧
        (cs.get ⟨x, hx⟩).qual = pySlice r.qual s e ∧
        (r.qual = ['*'] → s = 0 → 1 ≤ e → (cs.get ⟨x, hx⟩).qual = ['*']) ∧
        (r.qual = ['*'] → 1 ≤ s → (cs.get ⟨x, hx⟩).qual = [] ∧
          ∃ out, toFastq (cs.get ⟨x, hx⟩) true = .ok out)) ∧
    (r.qual = ['*'] → ∀ b : Int, 1 ≤ b → pySlice r.qual 0 b = ['*']) ∧
    (r.qual = ['*'] → ∀ a b : Int, 1 ≤ a → pySlice r.qual a b = []) ∧
    (∀ c : AlignData, c.qual = [] → ∃ out, toFastq c true = .ok out) := by
  refine ⟨?_, ?_, ?_, ?_⟩
  · intro h x hx
    unfold splitRead at h
    obtain ⟨s, e, hget, hg⟩ := splitLoop_ok_get _ 0 cs h x hx
    have hq := (getSubread_ok_fields hg).2.2
    refine ⟨s, e, hget, hq, ?_, ?_⟩
    · intro hqual hs he
      rw [hq, hqual, hs]
      exact pySlice_star_zero e he
    · intro hqual hs
      have hnil : (cs.get ⟨x, hx⟩).qual = [] := by
        rw [hq, hqual]
        exact pySlice_star_pos s e hs
      exact ⟨hnil, toFastq_ok_of_empty_qual _ hnil⟩
  · intro hq b hb
    rw [hq]
    exact pySlice_star_zero b hb
  · intro hq a b ha
    rw [hq]
    exact pySlice_star_pos a b ha
  · exact toFastq_ok_of_empty_qual

/-- C8 witness: splitting the default-quality record `AC` at offset 1 — the
child at index 0 (own interval `(0,1)`) keeps quality `"*"`, the child at
index 1 (own interval `(1,2)`) gets the empty quality and serializes
without error. -/
theorem C8_qual_slice_sentinel_witness :
    ∃ cs, splitRead { name := "r", seq := ['A','C'] } [] [] [1] = .ok cs ∧
      ∃ hx0 : 0 < cs.length, ∃ hx1 : 1 < cs.length,
        (cs.get ⟨0, hx0⟩).qual = ['*'] ∧
        (cs.get ⟨1, hx1⟩).qual = [] ∧
        ∃ out, toFastq (cs.get ⟨1, hx1⟩) true = .ok out := by
  refine ⟨_, rfl, ?_⟩
  have h := (C8_qual_slice_sentinel { name := "r", seq := ['A','C'] }
    [] [] [1] _).1 rfl
  obtain ⟨s0, e0, hg0, hq0, hstar0, hpos0⟩ := h 0 (by decide)
  obtain ⟨s1, e1, hg1, hq1, hstar1, hpos1⟩ := h 1 (by decide)
  have h00 : (some ((0 : Int), (1 : Int)) : Option (Int × Int)) =
      some (s0, e0) := by
    rw [← hg0]
    decide
  have h11 : (some ((1 : Int), (2 : Int)) : Option (Int × Int)) =
      some (s1, e1) := by
    rw [← hg1]
    decide
  cases h00
  cases h11
  exact ⟨by decide, by decide, hstar0 rfl rfl (by decide),
    (hpos1 rfl (by decide)).1, (hpos1 rfl (by decide)).2⟩

/-! ### Claim C9: MM/ML tags are always appended when mods are present -/

theorem processKey_skip (sq : List Char) (a b : Int) (k : ModKey)
    (d : List (Int × Nat)) (h : (d.filter (inRange a b)).isEmpty = true) :
    processKey sq a b k d = .ok none := by
  unfold processKey
  rw [if_pos h]

theorem buildModTags_all_skip (sq : List Char) (a b : Int) :
    ∀ (mbs : List (ModKey × List (Int × Nat))),
      (∀ kd ∈ mbs, (kd.2.filter (inRange a b)).isEmpty = true) →
      ∀ mm0 ml0 : String, buildModTags sq a b mbs mm0 ml0 = .ok (mm0, ml0) := by
  intro mbs
  induction mbs with
  | nil => exact fun _ _ _ => rfl
  | cons kd rest ih =>
    intro hskip mm0 ml0
    obtain ⟨k, d⟩ := kd
    have hpk := processKey_skip sq a b k d (hskip (k, d) (List.mem_cons_self _ _))
    simp only [buildModTags, hpk]
    exact ih (fun kd hkd => hskip kd (List.mem_cons_of_mem _ hkd)) mm0 ml0

theorem buildModTags_ok_extends (sq : List Char) (a b : Int) :
    ∀ (mbs : List (ModKey × List (Int × Nat))) (mm0 ml0 mm ml : String),
      buildModTags sq a b mbs mm0 ml0 = .ok (mm, ml) →
      (∃ x, mm = mm0 ++ x) ∧ (∃ y, ml = ml0 ++ y) := by
  intro mbs
  induction mbs with
  | nil =>
    intro mm0 ml0 mm ml h
    cases h
    exact ⟨⟨"", (String.append_empty mm0).symm⟩,
      ⟨"", (String.append_empty ml0).symm⟩⟩
  | cons kd rest ih =>
    intro mm0 ml0 mm ml h
    obtain ⟨k, d⟩ := kd
    unfold buildModTags at h
    cases hpk : processKey sq a b k d with
    | error e =>
      rw [hpk] at h
      cases h
    | ok o =>
      rw [hpk] at h
      cases o with
      | none => exact ih mm0 ml0 mm ml h
      | some p =>
        obtain ⟨mmf, mlf⟩ := p
        obtain ⟨⟨x, hx⟩, ⟨y, hy⟩⟩ := ih (mm0 ++ mmf) (ml0 ++ mlf) mm ml h
        exact ⟨⟨mmf ++ x, by rw [hx, String.append_assoc]⟩,
          ⟨mlf ++ y, by rw [hy, String.append_assoc]⟩⟩

theorem getSubread_ok_tags_mods {r : AlignData} {mt : List String} {a b : Int}
    {nm : String} {ami axt : Bool} {si : Option (Nat × Nat)}
    {m : List (ModKey × List (Int × Nat))} {c : AlignData}
    (hne : m.isEmpty = false)
    (h : getSubread r mt a b nm ami axt si (some m) = .ok c) :
    ∃ mm ml, buildModTags (pySlice r.seq a b) a b m "MM:Z:" "ML:B:" =
      .ok (mm, ml) ∧
      c.tags = subreadBaseTags r mt a b ami axt si ++ [mm, ml] := by
  simp only [getSubread] at h
  rw [if_neg (by rw [hne]; simp)] at h
  cases hb : buildModTags (pySlice r.seq a b) a b m "MM:Z:" "ML:B:" with
  | error e =>
    rw [hb] at h
    cases h
  | ok p =>
    rw [hb] at h
    obtain ⟨mm, ml⟩ := p
    cases h
    exact ⟨mm, ml, rfl, rfl⟩

/-- C9: whenever the parent record has modification tags and its decoded
modification mapping is non-empty, the child at zero-based position `x`
produced by `split` carries an `MM:Z:`-prefixed and an `ML:B:`-prefixed tag
as its last two tags — and when the child's own interval (the `x`-th entry
of the interval list) contains no modification for any key, those two tags
are exactly `"MM:Z:"` and `"ML:B:"`, with no per-key payload. -/
theorem C9_mm_ml_always_present (r : AlignData) (mt : List String)
    (dec : List (ModKey × List (Int × Nat))) (ps : List Int)
    (cs : List AlignData) (hm : hasMods mt r = true)
    (hd : dec.isEmpty = false) (hok : splitRead r mt dec ps = .ok cs) :
    ∀ (x : Nat) (hx : x < cs.length),
      ∃ (s e : Int) (pre : List String) (mm ml : String),
      (splitIntervals (r.seq.length) ps).get? x = some (s, e) ∧
      (cs.get ⟨x, hx⟩).tags = pre ++ [mm, ml] ∧
      (∃ a, mm = "MM:Z:" ++ a) ∧ (∃ b, ml = "ML:B:" ++ b) ∧
      ((∀ kd ∈ dec, (kd.2.filter (inRange s e)).isEmpty = true) →
        mm = "MM:Z:" ∧ ml = "ML:B:") := by
  intro x hx
  unfold splitRead at hok
  rw [if_pos hm] at hok
  obtain ⟨s, e, hget, hg⟩ := splitLoop_ok_get _ 0 cs hok x hx
  obtain ⟨mm, ml, hb, htags⟩ := getSubread_ok_tags_mods hd hg
  refine ⟨s, e, subreadBaseTags r mt s e true true (some (0 + x,
    (splitIntervals (r.seq.length) ps).length)), mm, ml,
    hget, htags, ?_, ?_, ?_⟩
  · exact (buildModTags_ok_extends _ s e dec "MM:Z:" "ML:B:" mm ml hb).1
  · exact (buildModTags_ok_extends _ s e dec "MM:Z:" "ML:B:" mm ml hb).2
  · intro hskip
    have hall := buildModTags_all_skip (pySlice r.seq s e) s e dec hskip
      "MM:Z:" "ML:B:"
    rw [hall] at hb
    cases hb
    exact ⟨rfl, rfl⟩

/-- C9 witness: the record `ACGT`, carrying an `MM` tag with a 5mC call at
offset 1, split at offset 2 — the child at index 1 (own interval `(2,4)`,
containing no modification) ends in two tags prefixed `MM:Z:`/`ML:B:`, and
its no-modification rider applies to that own interval. -/
theorem C9_mm_ml_always_present_witness :
    hasMods ["MM", "ML"]
      { name := "r", seq := ['A','C','G','T'], tags := ["MM:Z:C+m,0;"] } =
        true ∧
    (([((⟨'C', 0, "", "m"⟩ : ModKey),
      [((1 : Int), (200 : Nat))])]).isEmpty = false) ∧
    ∃ cs, splitRead
        { name := "r", seq := ['A','C','G','T'], tags := ["MM:Z:C+m,0;"] }
        ["MM", "ML"]
        [((⟨'C', 0, "", "m"⟩ : ModKey), [((1 : Int), (200 : Nat))])] [2] =
          .ok cs ∧
      ∃ hx : 1 < cs.length,
        ∃ (s e : Int) (pre : List String) (mm ml : String),
        (splitIntervals
          ((({ name := "r", seq := ['A','C','G','T'], tags := ["MM:Z:C+m,0;"] } : AlignData)).seq.length) [2]).get? 1 =
            some (s, e) ∧
        (cs.get ⟨1, hx⟩).tags = pre ++ [mm, ml] ∧
        (∃ a, mm = "MM:Z:" ++ a) ∧ (∃ b, ml = "ML:B:" ++ b) ∧
        ((∀ kd ∈ [((⟨'C', 0, "", "m"⟩ : ModKey), [((1 : Int), (200 : Nat))])],
            (kd.2.filter (inRange s e)).isEmpty = true) →
          mm = "MM:Z:" ∧ ml = "ML:B:") := by
  refine ⟨by decide, by decide, ⟨_, rfl, ?_⟩⟩
  exact ⟨by decide, C9_mm_ml_always_present
    { name := "r", seq := ['A','C','G','T'], tags := ["MM:Z:C+m,0;"] }
    ["MM", "ML"]
    [((⟨'C', 0, "", "m"⟩ : ModKey), [((1 : Int), (200 : Nat))])] [2] _
    (by decide) (by decide) rfl 1 (by decide)⟩

/-! ### Claim C10: 1-based name suffix, 0-based Xc index -/

/-- C10: the child at zero-based position `x` (1-based position `k = x + 1`)
of the `N` children produced by `split` is named `{parent}:{x+1}_{N}`, while
its `Xc` tag records the zero-based index: it is exactly
`Xc:B:i,<start>,<end>,<x>,<N>`. -/
theorem C10_name_vs_xc_index (r : AlignData) (mt : List String)
    (dec : List (ModKey × List (Int × Nat))) (ps : List Int)
    (cs : List AlignData) (hok : splitRead r mt dec ps = .ok cs) :
    ∀ (x : Nat) (hx : x < cs.length),
      (cs.get ⟨x, hx⟩).name = r.name ++ ":" ++ toString (x + 1) ++ "_" ++
        toString (splitIntervals (r.seq.length) ps).length ∧
      ∃ s e : Int, (splitIntervals (r.seq.length) ps).get? x = some (s, e) ∧
        ("Xc:B:i," ++ toString s ++ "," ++ toString e ++ "," ++ toString x
          ++ "," ++ toString (splitIntervals (r.seq.length) ps).length) ∈
          (cs.get ⟨x, hx⟩).tags := by
  intro x hx
  unfold splitRead at hok
  obtain ⟨s, e, hget, hg⟩ := splitLoop_ok_get _ 0 cs hok x hx
  simp only [Nat.zero_add] at hg
  constructor
  · exact (getSubread_ok_fields hg).1
  · refine ⟨s, e, hget, ?_⟩
    have hxc := xc_mem_subreadBaseTags r mt s e true x
      (splitIntervals (r.seq.length) ps).length
    rcases getSubread_ok_tags hg with h1 | ⟨m, mm, ml, hmb, hne, hb, h2⟩
    · rw [h1]
      exact hxc
    · rw [h2]
      exact List.mem_append_left _ hxc

/-- C10 witness: splitting `ACGT` at offset 2 — the second child (zero-based
index 1) is named `r:2_2` and carries `Xc:B:i,2,4,1,2`. -/
theorem C10_name_vs_xc_index_witness :
    ∃ cs, splitRead { name := "r", seq := ['A','C','G','T'] } [] [] [2] =
        .ok cs ∧
      ∃ hx : 1 < cs.length,
        (cs.get ⟨1, hx⟩).name =
          (({ name := "r", seq := ['A','C','G','T'] } : AlignData)).name
            ++ ":" ++ toString (1 + 1) ++ "_" ++
            toString (splitIntervals
              ((({ name := "r", seq := ['A','C','G','T'] }
                : AlignData)).seq.length) [2]).length ∧
        ∃ s e : Int,
          (splitIntervals ((({ name := "r", seq := ['A','C','G','T'] }
            : AlignData)).seq.length) [2]).get? 1 = some (s, e) ∧
          ("Xc:B:i," ++ toString s ++ "," ++ toString e ++ "," ++ toString 1
            ++ "," ++ toString (splitIntervals
              ((({ name := "r", seq := ['A','C','G','T'] }
                : AlignData)).seq.length) [2]).length) ∈
            (cs.get ⟨1, hx⟩).tags := by
  refine ⟨_, rfl, ?_⟩
  exact ⟨by decide,
    C10_name_vs_xc_index { name := "r", seq := ['A','C','G','T'] } [] [] [2]
      _ rfl 1 (by decide)⟩

end PoreC
